import Mathlib

open List

/-!
Verification model of `scripts/generate_brief.py`.

The script pulls market quotes, market news, weather and RSS headlines,
assembles a daily `BriefRecord`, and merges it into a rolling JSON archive
(`data/briefs.json`) capped at 30 entries.

Modeling conventions (shallow embedding):

* Network and SDK collaborators (Alpaca clients, `urllib`, the stdlib
  HTML tokenizer, `xml.etree`'s parser) are external to the repository;
  they enter the model as explicit inputs: an `Except String _` value for
  a batch fetch that can raise, a `String → Except String XmlElement`
  feed fetcher, and a `String → List HtmlEvent` HTML tokenizer.
  A Python `try/except` around such a call becomes a `match` on the
  `Except` value.
* Python strings are Lean `String`s; Python string operations that the
  script uses (slicing `s[:n]`, `strip()`, `lower()`, lexicographic
  comparison by code point) are modeled on the underlying character list,
  matching Python's code-point semantics.
* Python's `list.sort(key=lambda b: b.get("date",""), reverse=True)` is a
  stable sort, descending by the date string.  It is modeled by
  `List.insertionSort briefLe` where `briefLe a b` holds when
  `b.date ≤ a.date`: insertion sort with this relation is stable with
  ties kept in input order, which is extensionally the unique behavior of
  any stable descending sort, hence of CPython's.
* Alpaca's float prices are modeled as exact rationals; the numeric
  formatting helpers mirror the f-strings of the script.  No claim
  depends on float rounding behavior.
-/

/-! ### Python string primitives -/

/-- Python's `\s` whitespace class (ASCII part; the data handled by the
script's regexes and `strip()` calls is ASCII text). -/
def isPySpace (c : Char) : Bool :=
  c = ' ' || c = '\t' || c = '\n' || c = '\r' || c = '\x0b' || c = '\x0c'

/-- Python `str.strip()` on a character list: remove leading and trailing
whitespace. -/
def pyStripList (l : List Char) : List Char :=
  ((l.dropWhile isPySpace).reverse.dropWhile isPySpace).reverse

/-- Python `str.strip()`. -/
def pyStrip (s : String) : String :=
  ⟨pyStripList s.data⟩

/-- Python string slicing `s[:n]` (by code point). -/
def pyTake (s : String) (n : Nat) : String :=
  ⟨s.data.take n⟩

/-- Python `str.lower()` (the tag names it is applied to are ASCII). -/
def pyLower (s : String) : String :=
  ⟨s.data.map Char.toLower⟩

/-- Lexicographic comparison of character lists by code point: Python's
string `<=`. -/
def charListLe : List Char → List Char → Bool
  | [], _ => true
  | _ :: _, [] => false
  | c :: cs, d :: ds => if c < d then true else if d < c then false else charListLe cs ds

/-- Python string `<=` (code-point lexicographic). -/
def pyStrLe (s t : String) : Bool :=
  charListLe s.data t.data

/-- Python `" ".join(segments)`. -/
def joinSpace : List String → String
  | [] => ""
  | s :: rest => rest.foldl (fun acc t => acc ++ " " ++ t) s

/-! ### Data model -/

/-- One per-symbol entry of `brief["markets"]`. -/
structure MarketItem where
  label : String
  value : String
  change : String
  direction : String
deriving DecidableEq

/-- One market-news article of `brief["marketNews"]` (built by
`get_market_news`). -/
structure NewsArticle where
  headline : String
  source : String
  symbols : List String
  summary : String
  url : String
  created : String
deriving DecidableEq

/-- `brief["weather"]` (built by `get_weather`; fields formatted or absent). -/
structure WeatherSnapshot where
  location : String
  conditions : String
  temp : Option String
  feelsLike : Option String
  high : Option String
  low : Option String
  precipChance : Option String
deriving DecidableEq

/-- One feed entry of `brief["news"]` (built by `get_news`). -/
structure NewsItem where
  category : String
  headline : String
  summary : String
  url : String
deriving DecidableEq

/-- One daily brief: the dict assembled in `main()`. -/
structure BriefRecord where
  date : String
  generatedAt : String
  title : String
  markets : List MarketItem
  marketNews : List NewsArticle
  weather : WeatherSnapshot
  news : List NewsItem
deriving DecidableEq

/-! ### Configuration constants of the script -/

def MAX_ENTRIES : Nat := 30

def SYMBOLS : List String := ["SPY", "DIA", "QQQ"]

def SYMBOL_LABELS : List (String × String) :=
  [("SPY", "S&P 500 (SPY)"), ("DIA", "Dow (DIA)"), ("QQQ", "Nasdaq 100 (QQQ)")]

/-- `SYMBOL_LABELS.get(sym, sym)`. -/
def symbolLabel (sym : String) : String :=
  (SYMBOL_LABELS.lookup sym).getD sym

def STATE_FEEDS : List (String × String) :=
  [("World", "https://feeds.bbci.co.uk/news/world/rss.xml"),
   ("Middle East/Global", "https://www.aljazeera.com/xml/rss/all.xml")]

def TECH_FEED : String × String :=
  ("Tech", "https://www.bleepingcomputer.com/feed/")

def SKIP_TAGS : List String := ["script", "style", "noscript", "svg", "head"]

/-! ### Summarizer (`summarize_text`) -/

/-- `re.sub(r"\s+", " ", ·)`: collapse every whitespace run to a single
space.  `prevSpace` records whether the previous input character was part
of a whitespace run already replaced. -/
def collapseWsAux (prevSpace : Bool) : List Char → List Char
  | [] => []
  | c :: cs =>
    if isPySpace c then
      if prevSpace then collapseWsAux true cs
      else ' ' :: collapseWsAux true cs
    else c :: collapseWsAux false cs

/-- `re.sub(r"\s+", " ", text).strip()` on the character list. -/
def normalizeWsList (l : List Char) : List Char :=
  pyStripList (collapseWsAux false l)

/-- `re.sub(r"\s+", " ", text).strip()`: the whitespace normalization that
opens `summarize_text`. -/
def normalizeWs (text : String) : String :=
  ⟨normalizeWsList text.data⟩

/-- The sentence-boundary class `[.!?]` of the split regex. -/
def isSentEnd (c : Char) : Bool :=
  c = '.' || c = '!' || c = '?'

/-- `re.split(r"(?<=[.!?])\s+", text)` as a left-to-right scanner:
a split point is a whitespace run immediately preceded by `.`, `!` or `?`;
the run is consumed as the separator (`skipping` is true while inside it);
every other character goes into the current piece `acc` (kept reversed). -/
def splitGo (acc : List Char) (skipping : Bool) : List Char → List (List Char)
  | [] => [acc.reverse]
  | c :: cs =>
    if skipping && isPySpace c then splitGo acc skipping cs
    else if isSentEnd c && cs.head?.any isPySpace then
      (c :: acc).reverse :: splitGo [] true cs
    else splitGo (c :: acc) false cs

/-- `re.split(r"(?<=[.!?])\s+", text)`. -/
def splitSentences (l : List Char) : List (List Char) :=
  splitGo [] false l

/-- The accumulation loop of `summarize_text`: append sentences (separated
by a single space once `out` is nonempty) until the next one would push
`len(out) + len(s)` over the budget. -/
def buildSummary (maxLen : Nat) : List Char → List (List Char) → List Char
  | out, [] => out
  | out, s :: rest =>
    if maxLen < out.length + s.length then out
    else buildSummary maxLen (out ++ (if out.isEmpty then [] else [' ']) ++ s) rest

/-- `summarize_text(text, max_len=180)`. -/
def summarize_text (text : String) (max_len : Nat := 180) : String :=
  ⟨pyStripList (buildSummary max_len [] (splitSentences (normalizeWsList text.data)))⟩

/-! ### Text extractor (`TextExtractor`, `extract_text`) -/

/-- Handler events delivered by the stdlib `HTMLParser` tokenizer while
feeding an HTML string. -/
inductive HtmlEvent where
  | startTag (tag : String)
  | endTag (tag : String)
  | data (text : String)
deriving DecidableEq

/-- The mutable state of a `TextExtractor` instance. -/
structure ExtractorState where
  segments : List String
  skip : Nat
deriving DecidableEq

/-- The three handler methods of `TextExtractor`. -/
def handleEvent (st : ExtractorState) : HtmlEvent → ExtractorState
  | .startTag tag =>
    if pyLower tag ∈ SKIP_TAGS then { st with skip := st.skip + 1 } else st
  | .endTag tag =>
    if pyLower tag ∈ SKIP_TAGS ∧ 0 < st.skip then { st with skip := st.skip - 1 } else st
  | .data d =>
    if st.skip = 0 ∧ pyStrip d ≠ "" then { st with segments := st.segments ++ [pyStrip d] }
    else st

/-- Feed a sequence of tokenizer events to a fresh `TextExtractor`. -/
def runExtractor (events : List HtmlEvent) : ExtractorState :=
  events.foldl handleEvent ⟨[], 0⟩

/-- `" ".join(p.segments)` over the events actually delivered.  When the
tokenizer raises partway through, only the events before the failure are
delivered and the exception is swallowed (`except: pass`), so the result
is the join over that prefix. -/
def extractFromEvents (events : List HtmlEvent) : String :=
  joinSpace (runExtractor events).segments

/-- `extract_text(html)`, with the stdlib tokenizer abstracted as `parse`:
the events it delivers for `html` before returning or failing. -/
def extract_text (parse : String → List HtmlEvent) (html : String) : String :=
  extractFromEvents (parse html)

/-! ### Feed reader (`get_feed_items`, `get_news`) -/

/-- An `xml.etree.ElementTree` element: tag, text, child elements. -/
inductive XmlElement where
  | elem (tag : String) (text : Option String) (children : List XmlElement)

def XmlElement.tag : XmlElement → String
  | .elem t _ _ => t

def XmlElement.text : XmlElement → Option String
  | .elem _ t _ => t

def XmlElement.children : XmlElement → List XmlElement
  | .elem _ _ c => c

/-- `element.find(tag)`: first direct child with the given tag. -/
def XmlElement.find (el : XmlElement) (t : String) : Option XmlElement :=
  el.children.find? (fun c => c.tag == t)

/-- `element.findall(tag)`: all direct children with the given tag. -/
def XmlElement.findall (el : XmlElement) (t : String) : List XmlElement :=
  el.children.filter (fun c => c.tag == t)

/-- `element.findtext(tag)`: the found child's text (`""` when its text is
`None`), or `None` when no child matches. -/
def XmlElement.findtext (el : XmlElement) (t : String) : Option String :=
  (el.find t).map (fun c => c.text.getD "")

/-- `get_feed_items(feed_url)`: `fetched` is the outcome of
`ET.fromstring(fetch_text(feed_url))` — `.error` when the fetch times out,
the URL is unreachable, or the XML is malformed.  Any failure, as well as
a missing `channel` element, yields `[]`. -/
def get_feed_items (fetched : Except String XmlElement) : List XmlElement :=
  match fetched with
  | .error _ => []
  | .ok root =>
    match root.find "channel" with
    | some channel => channel.findall "item"
    | none => []

/-- `get_news()`: one entry per configured feed, from the feed's first item,
degrading to the `"unavailable"` placeholder when the feed yields no
items.  `fetch` maps a feed URL to its fetch/parse outcome; `parse` is the
HTML tokenizer used by `extract_text` on item descriptions. -/
def get_news (fetch : String → Except String XmlElement)
    (parse : String → List HtmlEvent) : List NewsItem :=
  (STATE_FEEDS ++ [TECH_FEED]).map fun rf =>
    match get_feed_items (fetch rf.2) with
    | item :: _ =>
      let title := pyStrip ((item.findtext "title").getD "")
      let descHtml := pyStrip ((item.findtext "description").getD "")
      let summary := if descHtml ≠ "" then summarize_text (extract_text parse descHtml) else ""
      ⟨rf.1, title, summary, pyStrip ((item.findtext "link").getD "")⟩
    | [] => ⟨rf.1, "unavailable", "", ""⟩

/-! ### Market snapshot (`get_markets`) -/

/-- An Alpaca latest quote; `ask_price` is modeled as an exact rational. -/
structure StockQuote where
  ask_price : ℚ
deriving DecidableEq

/-- An Alpaca daily bar. -/
structure StockBar where
  close : ℚ
deriving DecidableEq

/-- Two-digit zero-padded rendering of `n % 100`-style fraction parts. -/
def twoDigits (n : Nat) : String :=
  (if n < 10 then "0" else "") ++ toString n

/-- Group the reversed digit list with a comma after every three digits. -/
def commaRev : List Char → Nat → List Char
  | [], _ => []
  | c :: cs, k => if k = 3 then ',' :: c :: commaRev cs 1 else c :: commaRev cs (k + 1)

/-- Thousands-separated decimal rendering of a natural number. -/
def fmtNatComma (n : Nat) : String :=
  ⟨(commaRev (toString n).data.reverse 0).reverse⟩

/-- `f"{q:,.2f}"` over the rational model of the price. -/
def fmtMoney (q : ℚ) : String :=
  let c : ℤ := round (q * 100)
  (if c < 0 then "-" else "") ++ fmtNatComma (c.natAbs / 100) ++ "." ++ twoDigits (c.natAbs % 100)

/-- `f"{q:+.2f}"` over the rational model of the percent change. -/
def fmtPct (q : ℚ) : String :=
  let c : ℤ := round (q * 100)
  (if c < 0 then "-" else "+") ++ toString (c.natAbs / 100) ++ "." ++ twoDigits (c.natAbs % 100)

/-- `get_markets()`.  `fetch` is the outcome of the batch
`get_stock_latest_quote` / `get_stock_bars` calls; when either raises
(`.error e`), the `except` branch emits one `"unavailable"` placeholder per
configured symbol (with `str(e)[:50]` in the change field).  On success the
per-symbol loop runs: a missing or zero (falsy) ask price degrades that
symbol only; fewer than two daily bars yields an empty change string. -/
def get_markets
    (fetch : Except String ((String → Option StockQuote) × (String → List StockBar))) :
    List MarketItem :=
  match fetch with
  | .error e =>
    SYMBOLS.map fun sym => ⟨symbolLabel sym, "unavailable", pyTake e 50, "flat"⟩
  | .ok (quotes, bars) =>
    SYMBOLS.map fun sym =>
      let label := symbolLabel sym
      match quotes sym with
      | some q =>
        if q.ask_price ≠ 0 then
          let price := q.ask_price
          let symBars := bars sym
          if 2 ≤ symBars.length then
            let prevClose := ((symBars[symBars.length - 2]?).map StockBar.close).getD 0
            let pct := (price - prevClose) / prevClose * 100
            let arrow := if 0 < pct then "▲" else if pct < 0 then "▼" else "→"
            let dir := if 0 < pct then "up" else if pct < 0 then "down" else "flat"
            ⟨label, "$" ++ fmtMoney price, arrow ++ " " ++ fmtPct pct ++ "%", dir⟩
          else ⟨label, "$" ++ fmtMoney price, "", "flat"⟩
        else ⟨label, "unavailable", "", "flat"⟩
      | none => ⟨label, "unavailable", "", "flat"⟩

/-! ### Market news (`get_market_news`) -/

/-- An article as returned by the Alpaca news client (`result.data["news"]`);
`created_at` is modeled as its already-rendered ISO timestamp. -/
structure RawNewsArticle where
  headline : String
  source : String
  symbols : List String
  summary : Option String
  url : String
  created_at : Option String
deriving DecidableEq

/-- `get_market_news()`: `result` is the outcome of the client call plus the
`result.data["news"]` lookup; any exception yields `[]`.  On success the
first five articles are normalized: at most four symbols, summary
truncated at 180 characters with an appended `"..."` when longer. -/
def get_market_news (result : Except String (List RawNewsArticle)) : List NewsArticle :=
  match result with
  | .error _ => []
  | .ok news =>
    (news.take 5).map fun n =>
      { headline := n.headline
        source := n.source
        symbols := if n.symbols.isEmpty then [] else n.symbols.take 4
        summary :=
          match n.summary with
          | some s => if s ≠ "" ∧ 180 < s.length then pyTake s 180 ++ "..." else s
          | none => ""
        url := n.url
        created := n.created_at.getD "" }

/-! ### Archive merge (the merge step of `main()`, lines 237-240) -/

/-- The descending sort relation of
`briefs.sort(key=lambda b: b.get("date", ""), reverse=True)`:
`a` sorts no later than `b` when `b.date ≤ a.date`. -/
def briefLe (a b : BriefRecord) : Prop :=
  pyStrLe b.date a.date = true

instance : DecidableRel briefLe :=
  fun _ _ => instDecidableEqBool _ _

/-- The merge step of `main()`: drop entries carrying the new record's
date, append the new record, sort descending by date (stable), truncate
to `MAX_ENTRIES`. -/
def mergeStep (briefs : List BriefRecord) (brief : BriefRecord) : List BriefRecord :=
  (List.insertionSort briefLe
    ((briefs.filter fun b => b.date != brief.date) ++ [brief])).take MAX_ENTRIES

/-! ### Proof-support definitions and concrete test fixtures -/

/-- The skip-counter component of `handleEvent` on its own. -/
def stepSkip (n : Nat) : HtmlEvent → Nat
  | .startTag tag => if pyLower tag ∈ SKIP_TAGS then n + 1 else n
  | .endTag tag => if pyLower tag ∈ SKIP_TAGS ∧ 0 < n then n - 1 else n
  | .data _ => n

/-- The skip counter after a sequence of events, starting from `n`. -/
def foldlSkip (n : Nat) (es : List HtmlEvent) : Nat :=
  es.foldl stepSkip n

/-- Tail part of joining sentence pieces with single spaces. -/
def joinSpTail : List (List Char) → List Char
  | [] => []
  | s :: rest => ' ' :: (s ++ joinSpTail rest)

/-- Join sentence pieces with single spaces: for whitespace-normalized
text this reconstructs exactly the text that `splitSentences` split. -/
def joinSp : List (List Char) → List Char
  | [] => []
  | s :: rest => s ++ joinSpTail rest

/-- A weather payload for concrete test records. -/
def emptyWeather : WeatherSnapshot :=
  ⟨"", "", none, none, none, none, none⟩

/-- A brief record carrying only a date, for concrete test archives. -/
def briefOn (d : String) : BriefRecord :=
  ⟨d, "", "", [], [], emptyWeather, []⟩

/-- A raw article whose upstream summary has 181 characters. -/
def bigRawArticle : RawNewsArticle :=
  ⟨"Fed holds rates", "Reuters", ["SPY", "DIA", "QQQ", "IWM", "GLD"],
    some ⟨List.replicate 181 'x'⟩, "https://example.com/a",
    some "2025-01-01T00:00:00+00:00"⟩

/-- The article `get_market_news` produces from `bigRawArticle`. -/
def truncatedArticle : NewsArticle :=
  ⟨"Fed holds rates", "Reuters", ["SPY", "DIA", "QQQ", "IWM"],
    String.mk (List.replicate 180 'x') ++ "...", "https://example.com/a",
    "2025-01-01T00:00:00+00:00"⟩

/-! ## Order facts about the date comparison -/

theorem charListLe_refl : ∀ l : List Char, charListLe l l = true
  | [] => rfl
  | c :: cs => by simp [charListLe, charListLe_refl cs]

theorem charListLe_total : ∀ x y : List Char, charListLe x y = true ∨ charListLe y x = true
  | [], _ => .inl rfl
  | _ :: _, [] => .inr rfl
  | c :: cs, d :: ds => by
    rcases lt_trichotomy c d with h | h | h
    · left; simp [charListLe, h]
    · subst h
      rcases charListLe_total cs ds with h' | h'
      · left; simp [charListLe, lt_irrefl, h']
      · right; simp [charListLe, lt_irrefl, h']
    · right; simp [charListLe, h]

theorem charListLe_trans :
    ∀ x y z : List Char,
      charListLe x y = true → charListLe y z = true → charListLe x z = true
  | [], _, _ => fun _ _ => rfl
  | _ :: _, [], _ => fun h _ => by simp [charListLe] at h
  | _ :: _, _ :: _, [] => fun _ h => by simp [charListLe] at h
  | c :: cs, d :: ds, e :: es => fun h1 h2 => by
    rcases lt_trichotomy c d with hcd | hcd | hcd
    · rcases lt_trichotomy d e with hde | hde | hde
      · simp [charListLe, lt_trans hcd hde]
      · subst hde; simp [charListLe, hcd]
      · simp [charListLe, asymm hde, hde] at h2
    · subst hcd
      simp only [charListLe, lt_irrefl, if_false] at h1
      rcases lt_trichotomy c e with hce | hce | hce
      · simp [charListLe, hce]
      · subst hce
        simp only [charListLe, lt_irrefl, if_false] at h2 ⊢
        exact charListLe_trans cs ds es h1 h2
      · simp [charListLe, hce, asymm hce] at h2
    · simp [charListLe, hcd, asymm hcd] at h1

theorem charListLe_antisymm :
    ∀ x y : List Char, charListLe x y = true → charListLe y x = true → x = y
  | [], [] => fun _ _ => rfl
  | [], _ :: _ => fun _ h => by simp [charListLe] at h
  | _ :: _, [] => fun h _ => by simp [charListLe] at h
  | c :: cs, d :: ds => fun h1 h2 => by
    rcases lt_trichotomy c d with h | h | h
    · simp [charListLe, h, asymm h] at h2
    · subst h
      simp only [charListLe, lt_irrefl, if_false] at h1 h2
      rw [charListLe_antisymm cs ds h1 h2]
    · simp [charListLe, h, asymm h] at h1

instance : IsTotal BriefRecord briefLe :=
  ⟨fun a b => charListLe_total b.date.data a.date.data⟩

instance : IsTrans BriefRecord briefLe :=
  ⟨fun a b c h1 h2 => charListLe_trans c.date.data b.date.data a.date.data h2 h1⟩

theorem string_eq_of_data_eq {s t : String} (h : s.data = t.data) : s = t :=
  congrArg String.mk h

/-- From `b.date ≤ a.date` (the sort relation) and distinct dates, the
descending comparison is strict: `a.date ≤ b.date` fails. -/
theorem pyStrLe_false_of_briefLe_ne {a b : BriefRecord}
    (hle : briefLe a b) (hne : a.date ≠ b.date) : pyStrLe a.date b.date = false := by
  cases hab : pyStrLe a.date b.date with
  | false => rfl
  | true =>
    exact absurd (string_eq_of_data_eq (charListLe_antisymm _ _ hab hle)) hne

/-! ## C1: invariants of the merge step -/

/-- Claim C1, as stated, is false for an arbitrary starting archive: the
merge step only removes entries sharing the NEW record's date, so a
starting archive that already contains two records with the same (other)
date keeps both, and the written archive is neither unique by date nor
strictly descending. -/
theorem mergeStep_not_unique_for_arbitrary_archive :
    ¬ (mergeStep [briefOn "2020-01-01", briefOn "2020-01-01"]
        (briefOn "2024-01-01")).Pairwise (fun a b => a.date ≠ b.date) := by
  decide

/-- Claim C1 (amended): after the merge step of `main()` the archive
length never exceeds `MAX_ENTRIES`, for every starting archive; and if
the starting archive has pairwise-distinct dates — as every archive
previously written by the program does — the merged archive is strictly
descending by date string (hence unique by date). -/
theorem mergeStep_invariant (A : List BriefRecord) (r : BriefRecord) :
    (mergeStep A r).length ≤ MAX_ENTRIES ∧
      ((A.Pairwise fun a b => a.date ≠ b.date) →
        (mergeStep A r).Pairwise
          (fun a b => a.date ≠ b.date ∧ pyStrLe a.date b.date = false)) := by
  constructor
  · rw [mergeStep]
    simp only [List.length_take]
    exact Nat.min_le_left MAX_ENTRIES _
  · intro h
    have hfil : (A.filter fun b => b.date != r.date).Pairwise
        (fun a b => a.date ≠ b.date) :=
      h.sublist (List.filter_sublist A)
    have happ : ((A.filter fun b => b.date != r.date) ++ [r]).Pairwise
        (fun a b => a.date ≠ b.date) := by
      rw [pairwise_append]
      refine ⟨hfil, pairwise_singleton _ _, ?_⟩
      intro a ha b hb
      have hb' : b = r := by simpa using hb
      subst hb'
      simpa using List.of_mem_filter ha
    have hsorted : Sorted briefLe
        (List.insertionSort briefLe ((A.filter fun b => b.date != r.date) ++ [r])) :=
      sorted_insertionSort briefLe _
    have hne : (List.insertionSort briefLe
        ((A.filter fun b => b.date != r.date) ++ [r])).Pairwise
        (fun a b => a.date ≠ b.date) :=
      ((perm_insertionSort briefLe _).pairwise_iff (fun hab => hab.symm)).mpr happ
    have hstrict := (hsorted.and hne).imp
      (fun hab => And.intro hab.2 (pyStrLe_false_of_briefLe_ne hab.1 hab.2))
    exact hstrict.sublist (List.take_sublist _ _)

/-- Witness for `mergeStep_invariant` at a concrete archive and record,
discharging the distinct-dates hypothesis of the sortedness conjunct. -/
theorem mergeStep_invariant_witness :
    (mergeStep [briefOn "2020-01-01"] (briefOn "2024-01-01")).length ≤ MAX_ENTRIES ∧
      (mergeStep [briefOn "2020-01-01"] (briefOn "2024-01-01")).Pairwise
        (fun a b => a.date ≠ b.date ∧ pyStrLe a.date b.date = false) :=
  ⟨(mergeStep_invariant [briefOn "2020-01-01"] (briefOn "2024-01-01")).1,
   (mergeStep_invariant [briefOn "2020-01-01"] (briefOn "2024-01-01")).2 (by simp)⟩

/-! ## C4: total quote-source failure degrades every symbol -/

/-- Claim C4: when the batch quote/bars fetch raises, the `except` branch of
`get_markets` emits exactly one entry per configured symbol, in symbol
order, each with `value == "unavailable"`; the function is total (the
exception is caught and never reaches the caller). -/
theorem get_markets_total_failure (e : String) :
    (get_markets (.error e)).map (fun it => it.value) =
      ["unavailable", "unavailable", "unavailable"] ∧
    (get_markets (.error e)).map (fun it => it.label) =
      ["S&P 500 (SPY)", "Dow (DIA)", "Nasdaq 100 (QQQ)"] ∧
    (get_markets (.error e)).length = SYMBOLS.length :=
  ⟨rfl, rfl, rfl⟩

/-! ## C10: market news degrades to [] and is bounded by 5 -/

/-- Claim C10: any upstream failure makes `get_market_news` return `[]`
(the `except` branch; the function is total, so nothing propagates), and on
success at most the first five articles are returned. -/
theorem get_market_news_safe :
    (∀ e, get_market_news (.error e) = []) ∧
    (∀ news, (get_market_news (.ok news)).length ≤ 5) := by
  refine ⟨fun _ => rfl, fun news => ?_⟩
  simp only [get_market_news, List.length_map, List.length_take]
  omega

/-! ## C8: bounds on produced market-news articles -/

set_option maxRecDepth 100000 in
/-- Claim C8 counterexample: an upstream summary of 181 characters is cut
to its first 180 characters and `"..."` is appended, so the produced
summary has 183 > 180 characters. -/
theorem get_market_news_summary_exceeds_180 :
    ¬ (∀ a ∈ get_market_news (.ok [bigRawArticle]), a.summary.length ≤ 180) := by
  decide

/-- Claim C8 (amended): every article produced by `get_market_news` has a
summary of at most 183 characters (the 180-character cut plus the
three-character ellipsis appended to longer upstream summaries) and at
most 4 ticker symbols. -/
theorem get_market_news_bounds (result : Except String (List RawNewsArticle))
    (a : NewsArticle) (ha : a ∈ get_market_news result) :
    a.summary.length ≤ 183 ∧ a.symbols.length ≤ 4 := by
  match result with
  | .error e => simp [get_market_news] at ha
  | .ok news =>
    rw [get_market_news, List.mem_map] at ha
    obtain ⟨n, _, rfl⟩ := ha
    constructor
    · show (match n.summary with
        | some s => if s ≠ "" ∧ 180 < s.length then pyTake s 180 ++ "..." else s
        | none => "").length ≤ 183
      cases n.summary with
      | none => simp
      | some s =>
        show (if s ≠ "" ∧ 180 < s.length then pyTake s 180 ++ "..." else s).length ≤ 183
        by_cases h : s ≠ "" ∧ 180 < s.length
        · rw [if_pos h]
          show (s.data.take 180 ++ ['.', '.', '.']).length ≤ 183
          simp only [List.length_append, List.length_take, List.length_cons,
            List.length_nil]
          omega
        · rw [if_neg h]
          push_neg at h
          rcases eq_or_ne s "" with rfl | hne
          · simp
          · calc s.length ≤ 180 := h hne
              _ ≤ 183 := by omega
    · show (if n.symbols.isEmpty then [] else n.symbols.take 4).length ≤ 4
      split
      · simp
      · simp only [List.length_take]
        omega

set_option maxRecDepth 100000 in
/-- Witness for `get_market_news_bounds` at a concrete over-long article. -/
theorem get_market_news_bounds_witness :
    truncatedArticle.summary.length ≤ 183 ∧ truncatedArticle.symbols.length ≤ 4 :=
  get_market_news_bounds (.ok [bigRawArticle]) truncatedArticle (by decide)

/-! ## C5: feed failure degrades to [] and a placeholder entry -/

/-- Claim C5: a failed fetch/parse (`.error`) and a missing `channel`
element both make `get_feed_items` return `[]` without raising, and for
any configured feed whose items come back empty, `get_news` still emits
the `{category, headline: "unavailable", summary: "", url: ""}` entry. -/
theorem get_news_degradation :
    (∀ e, get_feed_items (.error e) = []) ∧
    (∀ root, root.find "channel" = none → get_feed_items (.ok root) = []) ∧
    (∀ fetch parse region url, (region, url) ∈ STATE_FEEDS ++ [TECH_FEED] →
      get_feed_items (fetch url) = [] →
      (⟨region, "unavailable", "", ""⟩ : NewsItem) ∈ get_news fetch parse) := by
  refine ⟨fun _ => rfl, fun root h => by simp [get_feed_items, h], ?_⟩
  intro fetch parse region url hmem hempty
  rw [get_news]
  refine List.mem_map.mpr ⟨(region, url), hmem, ?_⟩
  simp [hempty]

/-- Witness for `get_news_degradation`: a dead network yields `[]` items
and the BBC World feed still gets its placeholder entry. -/
theorem get_news_degradation_witness :
    get_feed_items (Except.error "timeout") = [] ∧
    (⟨"World", "unavailable", "", ""⟩ : NewsItem) ∈
      get_news (fun _ => .error "connection refused") (fun _ => []) :=
  ⟨get_news_degradation.1 "timeout",
   get_news_degradation.2.2 (fun _ => .error "connection refused") (fun _ => [])
     "World" "https://feeds.bbci.co.uk/news/world/rss.xml" (by decide) rfl⟩

/-! ## C6: extract_text on a parse failure partway through -/

/-- Claim C6 counterexample: the tokenizer fails after delivering the
first data event (`events.take 1`); the swallowed exception leaves the
already-collected segment in place, so `extract_text` returns `"hello"`,
not the empty string. -/
theorem extract_text_partial_not_empty :
    extract_text (fun _ => [HtmlEvent.data "hello", HtmlEvent.data "world"].take 1)
      "<p>hello<p>world" ≠ "" := by
  decide

theorem segments_mono_event (st : ExtractorState) (e : HtmlEvent) :
    st.segments <+: (handleEvent st e).segments := by
  cases e <;> simp only [handleEvent] <;> split
  · exact (Exists.intro [] (List.append_nil _))
  · exact (Exists.intro [] (List.append_nil _))
  · exact (Exists.intro [] (List.append_nil _))
  · exact (Exists.intro [] (List.append_nil _))
  · exact ⟨_, rfl⟩
  · exact (Exists.intro [] (List.append_nil _))

theorem segments_mono_fold (es : List HtmlEvent) (st : ExtractorState) :
    st.segments <+: (es.foldl handleEvent st).segments := by
  induction es generalizing st with
  | nil => exact ⟨[], List.append_nil _⟩
  | cons e es ih => exact (segments_mono_event st e).trans (ih (handleEvent st e))

/-- Claim C6 (amended): when parsing fails after `k` of the events of a
full tokenization, `extract_text` does not raise and returns the
space-join of the segments collected before the failure — a prefix of the
segments a complete parse would collect — which need not be empty. -/
theorem runExtractor_take_segments (events : List HtmlEvent) (k : Nat) :
    (runExtractor (events.take k)).segments <+: (runExtractor events).segments := by
  have h : runExtractor events =
      (events.drop k).foldl handleEvent (runExtractor (events.take k)) := by
    rw [runExtractor, runExtractor, ← List.foldl_append, List.take_append_drop]
  rw [h]
  exact segments_mono_fold _ _

/-! ## C3: summarizer length bound -/

/-- Claim C3 counterexample: with budget 4 and input `"a. b."`, the loop
accepts the second sentence because `len(out) + len(s) = 4 ≤ 4`, but the
joining space pushes the output to 5 characters; the code has no hard
truncation backstop. -/
theorem summarize_text_exceeds_budget :
    4 < (summarize_text "a. b." 4).length := by
  decide

theorem pyStripList_length_le (l : List Char) :
    (pyStripList l).length ≤ l.length := by
  rw [pyStripList, List.length_reverse]
  calc ((l.dropWhile isPySpace).reverse.dropWhile isPySpace).length
      ≤ (l.dropWhile isPySpace).reverse.length :=
        (List.dropWhile_sublist _).length_le
    _ = (l.dropWhile isPySpace).length := List.length_reverse _
    _ ≤ l.length := (List.dropWhile_sublist _).length_le

theorem buildSummary_length_le (maxLen : Nat) :
    ∀ (ss : List (List Char)) (out : List Char),
      (buildSummary maxLen out ss).length ≤ max out.length (maxLen + 1)
  | [], out => Nat.le_max_left _ _
  | s :: rest, out => by
    rw [buildSummary]
    split
    · exact Nat.le_max_left _ _
    · refine le_trans (buildSummary_length_le maxLen rest _) (max_le ?_ (Nat.le_max_right _ _))
      have hfit : out.length + s.length ≤ maxLen := by omega
      have hsep : (if out.isEmpty then ([] : List Char) else [' ']).length ≤ 1 := by
        split <;> simp
      simp only [List.length_append]
      omega

/-- Claim C3 (amended): for every input and budget the output of
`summarize_text` has at most `max_len + 1` characters — the accumulation
check ignores the single joining space, so the bound can be exceeded by
exactly one, and by no more. -/
theorem summarize_text_length_le (text : String) (max_len : Nat) :
    (summarize_text text max_len).length ≤ max_len + 1 := by
  show (pyStripList (buildSummary max_len []
    (splitSentences (normalizeWsList text.data)))).length ≤ max_len + 1
  refine le_trans (pyStripList_length_le _) ?_
  simpa using buildSummary_length_le max_len (splitSentences (normalizeWsList text.data)) []

/-! ## C9: the summarizer only ever emits a prefix of the normalized input -/

theorem head_dropWhile_false {α : Type} {p : α → Bool} :
    ∀ (l : List α) (x : α) (xs : List α), l.dropWhile p = x :: xs → p x = false
  | [], x, xs, h => by simp at h
  | c :: cs, x, xs, h => by
    rw [List.dropWhile_cons] at h
    by_cases hc : p c = true
    · rw [if_pos hc] at h
      exact head_dropWhile_false cs x xs h
    · rw [if_neg hc] at h
      cases h
      exact Bool.eq_false_iff.mpr hc

theorem dropWhile_chain' {α : Type} {R : α → α → Prop} {p : α → Bool} :
    ∀ l : List α, l.Chain' R → (l.dropWhile p).Chain' R
  | [], h => h
  | c :: cs, h => by
    rw [List.dropWhile_cons]
    split
    · exact dropWhile_chain' cs h.tail
    · exact h

theorem reverse_chain' {α : Type} {R : α → α → Prop} (hs : ∀ a b, R a b → R b a)
    (l : List α) (h : l.Chain' R) : l.reverse.Chain' R := by
  rw [List.chain'_reverse]
  exact h.imp (fun a b hab => hs a b hab)

theorem pyStripList_chain' {R : Char → Char → Prop} (hs : ∀ a b, R a b → R b a)
    (l : List Char) (h : l.Chain' R) : (pyStripList l).Chain' R := by
  rw [pyStripList]
  exact reverse_chain' hs _ (dropWhile_chain' _ (reverse_chain' hs _ (dropWhile_chain' _ h)))

theorem pyStripList_subset (l : List Char) : pyStripList l ⊆ l := by
  intro x hx
  rw [pyStripList, List.mem_reverse] at hx
  have hx2 := (List.dropWhile_sublist _).subset hx
  rw [List.mem_reverse] at hx2
  exact (List.dropWhile_sublist _).subset hx2

/-- The right-strip part of `pyStripList` keeps a prefix of the
left-stripped list. -/
theorem pyStripList_pre_dropWhile (l : List Char) :
    pyStripList l <+: l.dropWhile isPySpace := by
  obtain ⟨t, ht⟩ := List.dropWhile_suffix (l := (l.dropWhile isPySpace).reverse) isPySpace
  exact ⟨t.reverse, by rw [pyStripList, ← List.reverse_append, ht, List.reverse_reverse]⟩

theorem pyStripList_head_not_space (l : List Char) (x : Char)
    (hx : (pyStripList l).head? = some x) : isPySpace x = false := by
  obtain ⟨t, ht⟩ := pyStripList_pre_dropWhile l
  cases hz : pyStripList l with
  | nil => rw [hz] at hx; cases hx
  | cons y ys =>
    rw [hz] at hx ht
    have hxy : y = x := by simpa using hx
    subst hxy
    exact head_dropWhile_false l y (ys ++ t) (by rw [← ht]; simp)

/-- If the head of the input is not whitespace, `pyStripList` only removes
trailing characters, so the result is a prefix. -/
theorem pyStripList_pre_self (l : List Char)
    (hhead : ∀ x, l.head? = some x → isPySpace x = false) :
    pyStripList l <+: l := by
  have h1 : l.dropWhile isPySpace = l := by
    cases l with
    | nil => rfl
    | cons x xs =>
      rw [List.dropWhile_cons, if_neg]
      simp [hhead x rfl]
  have := pyStripList_pre_dropWhile l
  rwa [h1] at this

/-- Every whitespace character that `collapseWsAux` emits is a plain space. -/
theorem collapseWsAux_mem_space :
    ∀ (b : Bool) (l : List Char) (x : Char),
      x ∈ collapseWsAux b l → isPySpace x = true → x = ' '
  | b, [], x => by simp [collapseWsAux]
  | b, c :: cs, x => by
    rw [collapseWsAux]
    by_cases hc : isPySpace c = true
    · rw [if_pos hc]
      split
      · exact collapseWsAux_mem_space true cs x
      · intro hmem hsp
        rcases List.mem_cons.mp hmem with rfl | hmem'
        · rfl
        · exact collapseWsAux_mem_space true cs x hmem' hsp
    · rw [if_neg hc]
      intro hmem hsp
      rcases List.mem_cons.mp hmem with rfl | hmem'
      · exact absurd hsp hc
      · exact collapseWsAux_mem_space false cs x hmem' hsp

/-- `collapseWsAux` never emits two adjacent whitespace characters, and in
the `prevSpace = true` state its output cannot start with whitespace. -/
theorem collapseWsAux_chain' :
    ∀ (b : Bool) (l : List Char),
      (collapseWsAux b l).Chain' (fun a c => ¬(isPySpace a = true ∧ isPySpace c = true)) ∧
      (b = true → ∀ x, (collapseWsAux b l).head? = some x → isPySpace x = false)
  | _, [] => ⟨List.chain'_nil, fun _ x h => by cases h⟩
  | true, c :: cs => by
    by_cases hc : isPySpace c = true
    · have he : collapseWsAux true (c :: cs) = collapseWsAux true cs := by
        rw [collapseWsAux]; simp [hc]
      rw [he]
      exact ⟨(collapseWsAux_chain' true cs).1, fun _ => (collapseWsAux_chain' true cs).2 rfl⟩
    · have he : collapseWsAux true (c :: cs) = c :: collapseWsAux false cs := by
        rw [collapseWsAux]; simp [hc]
      rw [he]
      constructor
      · rw [List.chain'_cons']
        exact ⟨fun y _ hcon => absurd hcon.1 hc, (collapseWsAux_chain' false cs).1⟩
      · intro _ x hx
        have hcx : c = x := by simpa using hx
        subst hcx
        exact Bool.eq_false_iff.mpr hc
  | false, c :: cs => by
    by_cases hc : isPySpace c = true
    · have he : collapseWsAux false (c :: cs) = ' ' :: collapseWsAux true cs := by
        rw [collapseWsAux]; simp [hc]
      rw [he]
      refine ⟨?_, fun h => absurd h (by decide)⟩
      rw [List.chain'_cons']
      refine ⟨fun y hy hcon => ?_, (collapseWsAux_chain' true cs).1⟩
      have hyf := (collapseWsAux_chain' true cs).2 rfl y hy
      rw [hyf] at hcon
      exact absurd hcon.2 (by simp)
    · have he : collapseWsAux false (c :: cs) = c :: collapseWsAux false cs := by
        rw [collapseWsAux]; simp [hc]
      rw [he]
      refine ⟨?_, fun h => absurd h (by decide)⟩
      rw [List.chain'_cons']
      exact ⟨fun y _ hcon => absurd hcon.1 hc, (collapseWsAux_chain' false cs).1⟩

theorem normalizeWsList_space (l : List Char) :
    ∀ x ∈ normalizeWsList l, isPySpace x = true → x = ' ' := by
  intro x hx
  exact collapseWsAux_mem_space false l x (pyStripList_subset _ hx)

theorem normalizeWsList_chain' (l : List Char) :
    (normalizeWsList l).Chain' (fun a c => ¬(isPySpace a = true ∧ isPySpace c = true)) :=
  pyStripList_chain' (fun _ _ h hc => h ⟨hc.2, hc.1⟩) _ (collapseWsAux_chain' false l).1

theorem normalizeWsList_head (l : List Char) (x : Char)
    (hx : (normalizeWsList l).head? = some x) : isPySpace x = false :=
  pyStripList_head_not_space _ x hx

theorem splitGo_ne_nil : ∀ (acc : List Char) (sk : Bool) (l : List Char),
    splitGo acc sk l ≠ []
  | acc, sk, [] => by simp [splitGo]
  | acc, sk, c :: cs => by
    rw [splitGo]
    split
    · exact splitGo_ne_nil acc sk cs
    · split
      · simp
      · exact splitGo_ne_nil (c :: acc) false cs

/-- Once the head is not whitespace, the separator-skipping state behaves
exactly like the normal state. -/
theorem splitGo_true_false (acc : List Char) (l : List Char)
    (h : l.head?.any isPySpace = false) : splitGo acc true l = splitGo acc false l := by
  cases l with
  | nil => rfl
  | cons c cs =>
    have hc : isPySpace c = false := by simpa using h
    rw [splitGo, splitGo]
    simp [hc]

theorem joinSpTail_of_ne_nil :
    ∀ (R : List (List Char)), R ≠ [] → joinSpTail R = ' ' :: joinSp R
  | [], h => absurd rfl h
  | s :: rest, _ => by rw [joinSpTail, joinSp]

/-- The first piece produced by the scanner (in the normal state) is
nonempty whenever the accumulator or the remaining input is. -/
theorem splitGo_head_ne_nil : ∀ (l : List Char) (acc : List Char),
    acc ≠ [] ∨ l ≠ [] → ∃ p ps, splitGo acc false l = p :: ps ∧ p ≠ []
  | [], acc, h => by
    rcases h with h | h
    · exact ⟨acc.reverse, [], by rw [splitGo], by simpa using h⟩
    · exact absurd rfl h
  | c :: cs, acc, _ => by
    rw [splitGo]
    simp only [Bool.false_and, Bool.false_eq_true, if_false]
    split
    · exact ⟨(c :: acc).reverse, _, rfl, by simp⟩
    · exact splitGo_head_ne_nil cs (c :: acc) (.inl (by simp))

/-- Splitting whitespace-normalized text loses nothing: re-joining the
pieces with single spaces reconstructs the input.  The hypotheses say the
input has only plain-space whitespace and no two adjacent whitespace
characters — both hold for `normalizeWsList` output. -/
theorem splitGo_join : ∀ (l : List Char) (acc : List Char),
    (∀ x ∈ l, isPySpace x = true → x = ' ') →
    l.Chain' (fun a c => ¬(isPySpace a = true ∧ isPySpace c = true)) →
    joinSp (splitGo acc false l) = acc.reverse ++ l
  | [], acc, _, _ => by
    rw [splitGo, joinSp, joinSpTail]
  | c :: cs, acc, hsp, hdbl => by
    rw [splitGo]
    simp only [Bool.false_and, Bool.false_eq_true, if_false]
    by_cases hcut : (isSentEnd c && cs.head?.any isPySpace) = true
    · rw [if_pos hcut]
      have hd := ((Bool.and_eq_true _ _).mp hcut).2
      match cs, hd with
      | d :: cs', hd =>
        have hdsp : isPySpace d = true := by simpa using hd
        have hd' : d = ' ' := hsp d (by simp) hdsp
        subst hd'
        rw [splitGo, if_pos (by decide)]
        have hhead : cs'.head?.any isPySpace = false := by
          cases cs' with
          | nil => rfl
          | cons e es =>
            have hpair := (List.chain'_cons.mp (List.chain'_cons.mp hdbl).2).1
            show isPySpace e = false
            by_cases he : isPySpace e = true
            · exact absurd ⟨hdsp, he⟩ hpair
            · exact Bool.eq_false_iff.mpr he
        rw [splitGo_true_false [] cs' hhead, joinSp,
          joinSpTail_of_ne_nil _ (splitGo_ne_nil [] false cs'),
          splitGo_join cs' [] (fun x hx hxs => hsp x (by simp [hx]) hxs)
            ((List.chain'_cons.mp hdbl).2.tail)]
        simp
    · rw [if_neg hcut,
        splitGo_join cs (c :: acc) (fun x hx hxs => hsp x (by simp [hx]) hxs) hdbl.tail]
      simp
termination_by l => l.length
decreasing_by
  all_goals ((try simp only [List.length_cons]); omega)

/-- The accumulation loop only ever appends whole pieces with single-space
separators, so its result is a prefix of the full single-space join. -/
theorem buildSummary_pre_join (L : Nat) :
    ∀ (ss : List (List Char)) (out : List Char), out ≠ [] →
      buildSummary L out ss <+: out ++ joinSpTail ss
  | [], out, _ => by
    rw [buildSummary, joinSpTail, List.append_nil]
  | s :: rest, out, hout => by
    rw [buildSummary]
    split
    · exact ⟨joinSpTail (s :: rest), rfl⟩
    · have hsep : (if out.isEmpty then ([] : List Char) else [' ']) = [' '] := by
        cases out with
        | nil => exact absurd rfl hout
        | cons a l => rfl
      rw [hsep]
      have ih := buildSummary_pre_join L rest (out ++ [' '] ++ s) (by simp)
      refine ih.trans ?_
      rw [joinSpTail]
      simp [List.append_assoc]

/-- Claim C9: the output of `summarize_text` is a prefix of the
whitespace-normalized input — the summarizer never reorders, rewrites or
invents text. -/
theorem summarize_text_prefix_of_normalizeWs (text : String) (max_len : Nat) :
    (summarize_text text max_len).data <+: (normalizeWs text).data := by
  show pyStripList (buildSummary max_len [] (splitSentences (normalizeWsList text.data)))
      <+: normalizeWsList text.data
  set n := normalizeWsList text.data with hn
  rcases eq_or_ne n [] with hnil | hnnil
  · rw [hnil]
    simp [splitSentences, splitGo, buildSummary, pyStripList]
  · obtain ⟨p, ps, hsplit, hp⟩ := splitGo_head_ne_nil n [] (.inr hnnil)
    have hjoin : joinSp (p :: ps) = n := by
      rw [← hsplit]
      have h1 : ∀ x ∈ n, isPySpace x = true → x = ' ' := by
        rw [hn]; exact normalizeWsList_space text.data
      have h2 : n.Chain' (fun a c => ¬(isPySpace a = true ∧ isPySpace c = true)) := by
        rw [hn]; exact normalizeWsList_chain' text.data
      simpa using splitGo_join n [] h1 h2
    rw [splitSentences, hsplit, buildSummary]
    split
    · simp [pyStripList]
    · have hred : (([] : List Char) ++
          (if ([] : List Char).isEmpty then ([] : List Char) else [' ']) ++ p) = p := rfl
      rw [hred]
      have hout : buildSummary max_len p ps <+: n := by
        rw [← hjoin]
        exact buildSummary_pre_join max_len ps p hp
      refine (pyStripList_pre_self _ ?_).trans hout
      intro x hx
      obtain ⟨t, ht⟩ := hout
      cases hbs : buildSummary max_len p ps with
      | nil => rw [hbs] at hx; cases hx
      | cons y ys =>
        rw [hbs] at hx ht
        have hyx : y = x := by simpa using hx
        subst hyx
        have hnh : (normalizeWsList text.data).head? = some y := by
          rw [← hn, ← ht]; rfl
        exact normalizeWsList_head text.data y hnh

/-! ## C7: content inside skip tags is excluded entirely -/

theorem handleEvent_skip (st : ExtractorState) (e : HtmlEvent) :
    (handleEvent st e).skip = stepSkip st.skip e := by
  cases e with
  | startTag tag => by_cases h : pyLower tag ∈ SKIP_TAGS <;> simp [handleEvent, stepSkip, h]
  | endTag tag =>
    by_cases h : pyLower tag ∈ SKIP_TAGS ∧ 0 < st.skip <;> simp [handleEvent, stepSkip, h]
  | data d => by_cases h : st.skip = 0 ∧ pyStrip d ≠ "" <;> simp [handleEvent, stepSkip, h]

/-- While the skip counter stays at least 1, the extractor collects no
segments and the state evolves by the pure counter dynamics. -/
theorem run_skip_pos : ∀ (mid : List HtmlEvent) (st : ExtractorState),
    (∀ n : Nat, n ≤ mid.length → 1 ≤ foldlSkip st.skip (mid.take n)) →
    (mid.foldl handleEvent st).segments = st.segments ∧
    (mid.foldl handleEvent st).skip = foldlSkip st.skip mid
  | [], _, _ => ⟨rfl, rfl⟩
  | e :: m', st, hm => by
    have hpos : 1 ≤ st.skip := by simpa [foldlSkip] using hm 0 (by simp)
    have hstep : handleEvent st e = ⟨st.segments, stepSkip st.skip e⟩ := by
      cases e with
      | startTag tag =>
        by_cases h : pyLower tag ∈ SKIP_TAGS <;> simp [handleEvent, stepSkip, h]
      | endTag tag =>
        by_cases h : pyLower tag ∈ SKIP_TAGS ∧ 0 < st.skip <;> simp [handleEvent, stepSkip, h]
      | data d =>
        have h0 : ¬(st.skip = 0 ∧ pyStrip d ≠ "") := by
          intro hcon
          rw [hcon.1] at hpos
          exact absurd hpos (by decide)
        simp [handleEvent, stepSkip, h0]
    have hm' : ∀ n : Nat, n ≤ m'.length →
        1 ≤ foldlSkip (stepSkip st.skip e) (m'.take n) := by
      intro n hn
      have := hm (n + 1) (by simpa using Nat.succ_le_succ hn)
      simpa [foldlSkip, List.take_succ_cons] using this
    have ih := run_skip_pos m' ⟨st.segments, stepSkip st.skip e⟩ hm'
    rw [List.foldl_cons, hstep]
    exact ⟨ih.1, by rw [ih.2]; rfl⟩

/-- As long as the counter dynamics started from `d + 1` stays at least 1,
it is a translate of the dynamics started `c` higher. -/
theorem foldlSkip_add : ∀ (mid : List HtmlEvent) (c d : Nat),
    (∀ n : Nat, n ≤ mid.length → 1 ≤ foldlSkip (d + 1) (mid.take n)) →
    foldlSkip (c + d + 1) mid = c + foldlSkip (d + 1) mid
  | [], _, _, _ => rfl
  | e :: m', c, d, hm => by
    have h1 : 1 ≤ stepSkip (d + 1) e := by
      simpa [foldlSkip, List.take_succ_cons] using hm 1 (by simp)
    have htail : ∀ (d' : Nat), stepSkip (d + 1) e = d' + 1 →
        stepSkip (c + d + 1) e = c + d' + 1 →
        foldlSkip (c + d + 1) (e :: m') = c + foldlSkip (d + 1) (e :: m') := by
      intro d' he hce
      have hm'' : ∀ n : Nat, n ≤ m'.length → 1 ≤ foldlSkip (d' + 1) (m'.take n) := by
        intro n hn
        have := hm (n + 1) (by simpa using Nat.succ_le_succ hn)
        simpa [foldlSkip, List.take_succ_cons, he] using this
      have ih := foldlSkip_add m' c d' hm''
      show foldlSkip (stepSkip (c + d + 1) e) m' = c + foldlSkip (stepSkip (d + 1) e) m'
      rw [he, hce]
      exact ih
    cases e with
    | startTag tag =>
      by_cases h : pyLower tag ∈ SKIP_TAGS
      · exact htail (d + 1) (by simp [stepSkip, h]) (by simp [stepSkip, h]; omega)
      · exact htail d (by simp [stepSkip, h]) (by simp [stepSkip, h])
    | endTag tag =>
      by_cases h : pyLower tag ∈ SKIP_TAGS
      · have hd : 1 ≤ d := by
          have hse : stepSkip (d + 1) (HtmlEvent.endTag tag) = d := by
            simp [stepSkip, h]
          rw [hse] at h1
          exact h1
        obtain ⟨d'', rfl⟩ : ∃ d'', d = d'' + 1 := ⟨d - 1, by omega⟩
        refine htail d'' ?_ ?_
        · simp [stepSkip, h]
        · have hc2 : pyLower tag ∈ SKIP_TAGS ∧ 0 < c + (d'' + 1) + 1 := ⟨h, by omega⟩
          simp only [stepSkip, if_pos hc2]
          omega
      · exact htail d (by simp [stepSkip, h]) (by simp [stepSkip, h])
    | data s => exact htail d rfl rfl

/-- Claim C7: text enclosed in a skip tag — `script`, `style`, `noscript`,
`svg` or `head` — contributes nothing to `extract_text`, including data and
markup nested inside (`mid` is any event sequence whose skip-counter
dynamics, started at 1 for the enclosing tag, never returns to 0 and ends
back at 1).  The result equals extraction with the whole enclosed region
deleted. -/
theorem extract_text_skips_enclosed (parse : String → List HtmlEvent) (html : String)
    (pre mid post : List HtmlEvent) (t : String)
    (hparse : parse html = pre ++ HtmlEvent.startTag t :: (mid ++ HtmlEvent.endTag t :: post))
    (ht : pyLower t ∈ SKIP_TAGS)
    (hmid : ∀ n : Nat, n ≤ mid.length → 1 ≤ foldlSkip 1 (mid.take n))
    (hbal : foldlSkip 1 mid = 1) :
    extract_text parse html = extractFromEvents (pre ++ post) := by
  rw [extract_text, hparse, extractFromEvents, extractFromEvents]
  suffices hrun : runExtractor (pre ++ HtmlEvent.startTag t :: (mid ++ HtmlEvent.endTag t :: post))
      = runExtractor (pre ++ post) by rw [hrun]
  rw [runExtractor, runExtractor, List.foldl_append, List.foldl_append, List.foldl_cons,
    List.foldl_append, List.foldl_cons]
  set st0 : ExtractorState := pre.foldl handleEvent ⟨[], 0⟩ with hst0
  suffices hX : handleEvent
      (mid.foldl handleEvent (handleEvent st0 (HtmlEvent.startTag t))) (HtmlEvent.endTag t)
      = st0 by rw [hX]
  have hst1 : handleEvent st0 (HtmlEvent.startTag t) = ⟨st0.segments, st0.skip + 1⟩ := by
    simp [handleEvent, ht]
  have hadd : ∀ n : Nat, n ≤ mid.length →
      foldlSkip (st0.skip + 1) (mid.take n) = st0.skip + foldlSkip 1 (mid.take n) := by
    intro n hn
    have h := foldlSkip_add (mid.take n) st0.skip 0 ?_
    · exact h
    · intro m hm
      rw [List.take_take]
      have hmn : m ≤ n := le_trans hm (List.length_take_le n mid)
      rw [min_eq_left hmn]
      exact hmid m (le_trans hmn hn)
  have haddfull : foldlSkip (st0.skip + 1) mid = st0.skip + foldlSkip 1 mid := by
    have h := hadd mid.length (le_refl _)
    rwa [List.take_length] at h
  have hrunmid := run_skip_pos mid ⟨st0.segments, st0.skip + 1⟩ ?_
  · rw [hst1]
    set E : ExtractorState :=
      mid.foldl handleEvent ⟨st0.segments, st0.skip + 1⟩ with hE
    have hseg : E.segments = st0.segments := hrunmid.1
    have hskp : E.skip = st0.skip + 1 := by
      have h2 : E.skip = foldlSkip (st0.skip + 1) mid := hrunmid.2
      rw [h2, haddfull, hbal]
    have hcond : pyLower t ∈ SKIP_TAGS ∧ 0 < E.skip := ⟨ht, by rw [hskp]; omega⟩
    have hfin : handleEvent E (HtmlEvent.endTag t) = ⟨E.segments, E.skip - 1⟩ := by
      simp [handleEvent, hcond]
    rw [hfin, hseg, hskp, Nat.add_sub_cancel]
  · intro n hn
    show 1 ≤ foldlSkip (st0.skip + 1) (mid.take n)
    rw [hadd n hn]
    have := hmid n hn
    omega

/-- Witness for `extract_text_skips_enclosed`: the spec's own example
`extract_text("<script>ignored</script>visible") == "visible"`. -/
theorem extract_text_skips_enclosed_witness :
    extract_text
      (fun _ => [HtmlEvent.startTag "script", HtmlEvent.data "ignored",
        HtmlEvent.endTag "script", HtmlEvent.data "visible"])
      "<script>ignored</script>visible" = "visible" :=
  Eq.trans
    (extract_text_skips_enclosed
      (fun _ => [HtmlEvent.startTag "script", HtmlEvent.data "ignored",
        HtmlEvent.endTag "script", HtmlEvent.data "visible"])
      "<script>ignored</script>visible"
      [] [HtmlEvent.data "ignored"] [HtmlEvent.data "visible"] "script"
      rfl (by decide) (by decide) (by decide))
    (by decide)

/-! ## C2: idempotence of the merge step -/

/-- Two `orderedInsert`s with a strict relation between the inserted
elements commute. -/
theorem orderedInsert_comm_of_le (x a : BriefRecord)
    (h1 : briefLe a x) (h2 : ¬briefLe x a) :
    ∀ M : List BriefRecord,
      (M.orderedInsert briefLe a).orderedInsert briefLe x
        = (M.orderedInsert briefLe x).orderedInsert briefLe a
  | [] => by simp [List.orderedInsert, h1, h2]
  | b :: M => by
    by_cases hab : briefLe a b
    · by_cases hxb : briefLe x b
      · simp [List.orderedInsert, h1, h2, hab, hxb]
      · simp [List.orderedInsert, h1, h2, hab, hxb]
    · have hxb : ¬briefLe x b := fun hc => hab (IsTrans.trans a x b h1 hc)
      simp only [List.orderedInsert, if_neg hab, if_neg hxb]
      rw [orderedInsert_comm_of_le x a h1 h2 M]

/-- `orderedInsert`s of elements with distinct dates commute. -/
theorem orderedInsert_comm_of_ne (x a : BriefRecord) (hne : x.date ≠ a.date)
    (M : List BriefRecord) :
    (M.orderedInsert briefLe a).orderedInsert briefLe x
      = (M.orderedInsert briefLe x).orderedInsert briefLe a := by
  rcases charListLe_total x.date.data a.date.data with h | h
  · have h2 : ¬briefLe x a := fun hc =>
      hne (string_eq_of_data_eq (charListLe_antisymm _ _ h hc))
    exact orderedInsert_comm_of_le x a h h2 M
  · have h2 : ¬briefLe a x := fun hc =>
      hne (string_eq_of_data_eq (charListLe_antisymm _ _ hc h))
    exact (orderedInsert_comm_of_le a x h h2 M).symm

/-- Appending a record with a fresh date and sorting is the same as
sorting first and inserting the record into the result. -/
theorem insertionSort_append_singleton (a : BriefRecord) :
    ∀ l : List BriefRecord, (∀ b ∈ l, b.date ≠ a.date) →
      List.insertionSort briefLe (l ++ [a])
        = (List.insertionSort briefLe l).orderedInsert briefLe a
  | [], _ => by simp [List.insertionSort]
  | x :: l, h => by
    have ih := insertionSort_append_singleton a l (fun b hb => h b (List.mem_cons_of_mem x hb))
    calc List.insertionSort briefLe ((x :: l) ++ [a])
        = ((List.insertionSort briefLe (l ++ [a])).orderedInsert briefLe x) := by
          rw [List.cons_append, List.insertionSort]
      _ = ((List.insertionSort briefLe l).orderedInsert briefLe a).orderedInsert briefLe x := by
          rw [ih]
      _ = ((List.insertionSort briefLe l).orderedInsert briefLe x).orderedInsert briefLe a :=
          orderedInsert_comm_of_ne x a (h x (List.mem_cons_self x l)) _
      _ = (List.insertionSort briefLe (x :: l)).orderedInsert briefLe a := by
          rw [List.insertionSort]

/-- Inserting below every element appends at the end. -/
theorem orderedInsert_eq_append (a : BriefRecord) :
    ∀ l : List BriefRecord, (∀ b ∈ l, ¬briefLe a b) →
      l.orderedInsert briefLe a = l ++ [a]
  | [], _ => rfl
  | b :: l, h => by
    rw [List.orderedInsert, if_neg (h b (List.mem_cons_self b l)),
      orderedInsert_eq_append a l (fun c hc => h c (List.mem_cons_of_mem b hc))]
    rfl

/-- Inserting between a left part it sorts below and a right part it sorts
above lands exactly at the seam. -/
theorem orderedInsert_mid (a : BriefRecord) :
    ∀ P Q : List BriefRecord, (∀ b ∈ P, ¬briefLe a b) →
      (Q = [] ∨ ∃ q Q', Q = q :: Q' ∧ briefLe a q) →
      (P ++ Q).orderedInsert briefLe a = P ++ a :: Q
  | [], Q, _, hQ => by
    rcases hQ with rfl | ⟨q, Q', rfl, hq⟩
    · rfl
    · rw [List.nil_append, List.orderedInsert, if_pos hq, List.nil_append]
  | b :: P, Q, hP, hQ => by
    rw [List.cons_append, List.orderedInsert, if_neg (hP b (List.mem_cons_self _ _)),
      orderedInsert_mid a P Q (fun c hc => hP c (List.mem_cons_of_mem b hc)) hQ]
    rfl

/-- Claim C2: merging a record for date D twice yields the same archive as
merging it once — the second merge filters out exactly the copy of the
record the first merge placed (or nothing, when the first merge truncated
it away past the 30-entry cap) and re-inserts it at the same spot — and
the merged archive never holds more than one entry for D. -/
theorem mergeStep_idempotent (A : List BriefRecord) (r : BriefRecord) :
    mergeStep (mergeStep A r) r = mergeStep A r ∧
      (mergeStep A r).countP (fun b => b.date == r.date) ≤ 1 := by
  have hA'ne : ∀ b ∈ A.filter (fun b => b.date != r.date), b.date ≠ r.date := by
    intro b hb
    simpa using List.of_mem_filter hb
  set M := List.insertionSort briefLe (A.filter (fun b => b.date != r.date)) with hM
  have hMsorted : List.Sorted briefLe M := List.sorted_insertionSort briefLe _
  have hMne : ∀ b ∈ M, b.date ≠ r.date := by
    intro b hb
    rw [hM] at hb
    exact hA'ne b ((List.perm_insertionSort briefLe _).subset hb)
  set P := M.takeWhile (fun b => ¬briefLe r b) with hPdef
  set Q := M.dropWhile (fun b => ¬briefLe r b) with hQdef
  have hPQ : M.orderedInsert briefLe r = P ++ r :: Q :=
    List.orderedInsert_eq_take_drop briefLe r M
  have hMPQ : P ++ Q = M := List.takeWhile_append_dropWhile _ M
  have hPnotle : ∀ b ∈ P, ¬briefLe r b := by
    intro b hb
    rw [hPdef] at hb
    simpa using List.mem_takeWhile_imp hb
  have hPdate : ∀ b ∈ P, b.date ≠ r.date := by
    intro b hb
    refine hMne b ?_
    rw [← hMPQ]
    exact List.mem_append.mpr (.inl hb)
  have hQdate : ∀ b ∈ Q, b.date ≠ r.date := by
    intro b hb
    refine hMne b ?_
    rw [← hMPQ]
    exact List.mem_append.mpr (.inr hb)
  have hQhead : ∀ q Q'', Q = q :: Q'' → briefLe r q := by
    intro q Q'' hq
    rw [hQdef] at hq
    simpa using head_dropWhile_false M q Q'' hq
  have hPsorted : List.Sorted briefLe P := by
    refine hMsorted.sublist ?_
    rw [← hMPQ]
    exact List.sublist_append_left P Q
  have hmerge1 : mergeStep A r = (P ++ r :: Q).take MAX_ENTRIES := by
    rw [mergeStep, insertionSort_append_singleton r _ hA'ne, ← hM, hPQ]
  constructor
  · by_cases hlen : MAX_ENTRIES ≤ P.length
    · have hBP : (P ++ r :: Q).take MAX_ENTRIES = P.take MAX_ENTRIES := by
        rw [List.take_append_eq_append_take,
          show MAX_ENTRIES - P.length = 0 from by omega, List.take_zero, List.append_nil]
      rw [hmerge1, hBP]
      set B := P.take MAX_ENTRIES with hBdef
      have hBsub : ∀ b ∈ B, b ∈ P := fun b hb => List.take_subset _ _ hb
      have hBdate : ∀ b ∈ B, b.date ≠ r.date := fun b hb => hPdate b (hBsub b hb)
      have hBnotle : ∀ b ∈ B, ¬briefLe r b := fun b hb => hPnotle b (hBsub b hb)
      have hBsorted : List.Sorted briefLe B := hPsorted.sublist (List.take_sublist _ _)
      have hBfilter : B.filter (fun b => b.date != r.date) = B :=
        List.filter_eq_self.mpr (fun b hb => by simpa using hBdate b hb)
      have hBlen : B.length = MAX_ENTRIES := by
        rw [hBdef, List.length_take]
        omega
      rw [mergeStep, hBfilter, insertionSort_append_singleton r B hBdate,
        hBsorted.insertionSort_eq, orderedInsert_eq_append r B hBnotle,
        List.take_append_eq_append_take, List.take_of_length_le (le_of_eq hBlen),
        show MAX_ENTRIES - B.length = 0 from by omega, List.take_zero, List.append_nil]
    · push_neg at hlen
      obtain ⟨k, hk⟩ : ∃ k, MAX_ENTRIES - P.length = k + 1 :=
        ⟨MAX_ENTRIES - P.length - 1, by omega⟩
      have hsplit : (P ++ r :: Q).take MAX_ENTRIES = P ++ r :: Q.take k := by
        rw [List.take_append_eq_append_take, List.take_of_length_le (le_of_lt hlen), hk,
          List.take_succ_cons]
      rw [hmerge1, hsplit]
      have hQkdate : ∀ b ∈ Q.take k, b.date ≠ r.date := fun b hb =>
        hQdate b (List.take_subset _ _ hb)
      have hPQkdate : ∀ b ∈ P ++ Q.take k, b.date ≠ r.date := fun b hb =>
        (List.mem_append.mp hb).elim (hPdate b) (hQkdate b)
      have hfilterB : (P ++ r :: Q.take k).filter (fun b => b.date != r.date)
          = P ++ Q.take k := by
        rw [List.filter_append,
          List.filter_eq_self.mpr (fun b hb => by simpa using hPdate b hb)]
        have hr : (r.date != r.date) = false := by simp
        simp only [List.filter_cons, hr, Bool.false_eq_true, if_false]
        rw [List.filter_eq_self.mpr (fun b hb => by simpa using hQkdate b hb)]
      have hPQk_sorted : List.Sorted briefLe (P ++ Q.take k) := by
        refine hMsorted.sublist ?_
        rw [← hMPQ]
        exact (List.take_sublist _ _).append_left P
      have hmid : (P ++ Q.take k).orderedInsert briefLe r = P ++ r :: Q.take k := by
        refine orderedInsert_mid r P (Q.take k) hPnotle ?_
        cases k with
        | zero => exact .inl (List.take_zero _)
        | succ j =>
          cases hQc : Q with
          | nil => exact .inl List.take_nil
          | cons q Q0 =>
            exact .inr ⟨q, Q0.take j, List.take_succ_cons, hQhead q Q0 hQc⟩
      have hBlen2 : (P ++ r :: Q.take k).length ≤ MAX_ENTRIES := by
        simp only [List.length_append, List.length_cons, List.length_take]
        omega
      rw [mergeStep, hfilterB, insertionSort_append_singleton r _ hPQkdate,
        hPQk_sorted.insertionSort_eq, hmid, List.take_of_length_le hBlen2]
  · rw [hmerge1]
    calc ((P ++ r :: Q).take MAX_ENTRIES).countP (fun b => b.date == r.date)
        ≤ (P ++ r :: Q).countP (fun b => b.date == r.date) :=
          (List.take_sublist _ _).countP_le _
      _ ≤ 1 := by
          have h1 : P.countP (fun b => b.date == r.date) = 0 :=
            List.countP_eq_zero.mpr (fun a ha => by simpa using hPdate a ha)
          have h2 : Q.countP (fun b => b.date == r.date) = 0 :=
            List.countP_eq_zero.mpr (fun a ha => by simpa using hQdate a ha)
          rw [List.countP_append, List.countP_cons, h1, h2]
          simp
